import Mathlib

/-!
Verification of the rom-browser repository's ROM sourcing workflow.

Strings from the Python source are modelled as `List Char`; Python `dict`s
as association lists; the filesystem as the list of file names present in
the download directory; the network as an oracle (`NetEnv`) giving, for each
URL, the result of the HEAD request (`headSize`) and of the streaming GET
(`getResult`: `some bytes` on success, `none` when the request or the write
raises).  Python floats appear only in rating comparisons, never in
arithmetic, and are modelled as rationals.
-/

/-- Convert a Lean string literal to the `List Char` representation used
throughout this development. -/
def toChars (s : String) : List Char := s.data

/-- `listStartsWith p l` is Python's `l.startswith(p)` on strings. -/
def listStartsWith : List Char → List Char → Bool
  | [], _ => true
  | _ :: _, [] => false
  | p :: ps, c :: cs => p = c && listStartsWith ps cs

/-- `listEndsWith p l` is Python's `l.endswith(p)` on strings. -/
def listEndsWith (p l : List Char) : Bool :=
  listStartsWith p.reverse l.reverse

/-- `isSubstring pat l` is Python's `pat in l` substring test on strings. -/
def isSubstring (pat : List Char) : List Char → Bool
  | [] => listStartsWith pat []
  | c :: cs => listStartsWith pat (c :: cs) || isSubstring pat cs

/-- Python's `str.lower()`, restricted to ASCII case mapping (the source
only compares ASCII file names). -/
def lowerStr (l : List Char) : List Char := l.map Char.toLower

/-- Python's `<` on strings: lexicographic comparison by code point, a
proper prefix being smaller. -/
def listLtChar : List Char → List Char → Bool
  | _, [] => false
  | [], _ :: _ => true
  | a :: as, b :: bs =>
    if a.toNat < b.toNat then true
    else if b.toNat < a.toNat then false
    else listLtChar as bs

theorem listLtChar_asymm : ∀ a b : List Char,
    listLtChar a b = true → listLtChar b a = false := by
  intro a
  induction a with
  | nil =>
    intro b _
    cases b with
    | nil => rfl
    | cons c cs => rfl
  | cons x xs ih =>
    intro b hab
    cases b with
    | nil => simp [listLtChar] at hab
    | cons y ys =>
      simp only [listLtChar] at hab ⊢
      by_cases hxy : x.toNat < y.toNat
      · have : ¬ y.toNat < x.toNat := by omega
        simp [hxy, this]
      · by_cases hyx : y.toNat < x.toNat
        · simp [hxy, hyx] at hab
        · simp only [hxy, if_false, hyx] at hab
          simp [hxy, hyx, ih ys hab]

theorem listLtChar_trans : ∀ a b c : List Char,
    listLtChar a b = true → listLtChar b c = true → listLtChar a c = true := by
  intro a
  induction a with
  | nil =>
    intro b c hab hbc
    cases c with
    | nil =>
      cases b with
      | nil => exact hab
      | cons y ys => simp [listLtChar] at hbc
    | cons z zs => rfl
  | cons x xs ih =>
    intro b c hab hbc
    cases b with
    | nil => simp [listLtChar] at hab
    | cons y ys =>
      cases c with
      | nil => simp [listLtChar] at hbc
      | cons z zs =>
        simp only [listLtChar] at hab hbc ⊢
        by_cases hxy : x.toNat < y.toNat
        · by_cases hyz : y.toNat < z.toNat
          · have : x.toNat < z.toNat := by omega
            simp [this]
          · by_cases hzy : z.toNat < y.toNat
            · simp [hyz, hzy] at hbc
            · have : x.toNat < z.toNat := by omega
              simp [this]
        · by_cases hyx : y.toNat < x.toNat
          · simp [hxy, hyx] at hab
          · have hxyEq : x.toNat = y.toNat := by omega
            by_cases hyz : y.toNat < z.toNat
            · have : x.toNat < z.toNat := by omega
              simp [this]
            · by_cases hzy : z.toNat < y.toNat
              · simp [hyz, hzy] at hbc
              · have h1 : ¬ x.toNat < z.toNat := by omega
                have h2 : ¬ z.toNat < x.toNat := by omega
                simp only [hxy, if_false, hyx] at hab
                simp only [hyz, if_false, hzy] at hbc
                simp [h1, h2, ih ys zs hab hbc]

theorem listLtChar_irrefl (a : List Char) : listLtChar a a = false := by
  induction a with
  | nil => rfl
  | cons x xs ih => simp [listLtChar, ih]

/-! ### A stable insertion sort modelling Python's `list.sort` -/

/-- Insert `x` into `l`, placing it after any element it is not strictly
below.  Folding this over a list reproduces Python's stable sort for a
strict-weak-order comparator `lt`. -/
def insertAfterEq {α : Type} (lt : α → α → Bool) (x : α) : List α → List α
  | [] => [x]
  | y :: l => if lt x y then x :: y :: l else y :: insertAfterEq lt x l

/-- Python's `list.sort()` with strict comparator `lt` derived from the sort
key: stable insertion sort. -/
def pySortBy {α : Type} (lt : α → α → Bool) (l : List α) : List α :=
  l.foldl (fun acc y => insertAfterEq lt y acc) []

theorem perm_insertAfterEq {α : Type} (lt : α → α → Bool) (x : α) (l : List α) :
    List.Perm (insertAfterEq lt x l) (x :: l) := by
  induction l with
  | nil => simp [insertAfterEq]
  | cons y l ih =>
    simp only [insertAfterEq]
    by_cases h : lt x y
    · simp [h]
    · simp only [h, if_false, Bool.false_eq_true]
      exact ((ih.cons y).trans (List.Perm.swap x y l))

theorem mem_insertAfterEq {α : Type} (lt : α → α → Bool) (x a : α) (l : List α) :
    a ∈ insertAfterEq lt x l ↔ a = x ∨ a ∈ l := by
  rw [(perm_insertAfterEq lt x l).mem_iff]
  simp

theorem perm_pySortBy_aux {α : Type} (lt : α → α → Bool) :
    ∀ (l acc : List α),
      List.Perm (l.foldl (fun acc y => insertAfterEq lt y acc) acc) (acc ++ l) := by
  intro l
  induction l with
  | nil => intro acc; simp
  | cons x l ih =>
    intro acc
    simp only [List.foldl_cons]
    have h1 : List.Perm
        (l.foldl (fun acc y => insertAfterEq lt y acc) (insertAfterEq lt x acc))
        (insertAfterEq lt x acc ++ l) := ih _
    have h2 : List.Perm (insertAfterEq lt x acc ++ l) ((x :: acc) ++ l) :=
      (perm_insertAfterEq lt x acc).append_right l
    have h3 : List.Perm ((x :: acc) ++ l) (acc ++ x :: l) :=
      List.perm_middle.symm
    exact (h1.trans h2).trans h3

theorem perm_pySortBy {α : Type} (lt : α → α → Bool) (l : List α) :
    List.Perm (pySortBy lt l) l := by
  simpa using perm_pySortBy_aux lt l []

theorem mem_pySortBy {α : Type} (lt : α → α → Bool) (a : α) (l : List α) :
    a ∈ pySortBy lt l ↔ a ∈ l :=
  (perm_pySortBy lt l).mem_iff

/-- A list is sorted for comparator `lt` when no later element is strictly
below an earlier one. -/
def SortedB {α : Type} (lt : α → α → Bool) (l : List α) : Prop :=
  l.Pairwise (fun a b => lt b a = false)

theorem sortedB_insertAfterEq {α : Type} (lt : α → α → Bool)
    (htrans : ∀ a b c, lt a b = true → lt b c = true → lt a c = true)
    (hasymm : ∀ a b, lt a b = true → lt b a = false)
    (a : α) (l : List α) (hl : SortedB lt l) :
    SortedB lt (insertAfterEq lt a l) := by
  unfold SortedB at hl ⊢
  induction l with
  | nil => simp [insertAfterEq]
  | cons y l ih =>
    rw [List.pairwise_cons] at hl
    obtain ⟨hy, hl'⟩ := hl
    simp only [insertAfterEq]
    by_cases h : lt a y
    · simp only [h, if_true]
      refine List.Pairwise.cons ?_ (List.Pairwise.cons hy hl')
      intro z hz
      rcases List.mem_cons.mp hz with rfl | hzl
      · exact hasymm _ _ h
      · cases hza : lt z a
        · rfl
        · exfalso
          have hzy : lt z y = true := htrans _ _ _ hza h
          have hzy' := hy z hzl
          rw [hzy'] at hzy
          exact Bool.noConfusion hzy
    · simp only [h, if_false, Bool.false_eq_true]
      refine List.Pairwise.cons ?_ (ih hl')
      intro z hz
      rcases (mem_insertAfterEq lt a z l).mp hz with rfl | hzl
      · cases hay : lt z y
        · rfl
        · exact absurd hay h
      · exact hy z hzl

theorem sortedB_pySortBy_aux {α : Type} (lt : α → α → Bool)
    (htrans : ∀ a b c, lt a b = true → lt b c = true → lt a c = true)
    (hasymm : ∀ a b, lt a b = true → lt b a = false) :
    ∀ (l acc : List α), SortedB lt acc →
      SortedB lt (l.foldl (fun acc y => insertAfterEq lt y acc) acc) := by
  intro l
  induction l with
  | nil => intro acc h; exact h
  | cons x l ih =>
    intro acc h
    simp only [List.foldl_cons]
    exact ih _ (sortedB_insertAfterEq lt htrans hasymm x acc h)

theorem sortedB_pySortBy {α : Type} (lt : α → α → Bool)
    (htrans : ∀ a b c, lt a b = true → lt b c = true → lt a c = true)
    (hasymm : ∀ a b, lt a b = true → lt b a = false)
    (l : List α) : SortedB lt (pySortBy lt l) :=
  sortedB_pySortBy_aux lt htrans hasymm l [] (by simp [SortedB])

/-- The head of a `pySortBy`-sorted list is minimal: no element of the
original list is strictly below it. -/
theorem pySortBy_head_min {α : Type} (lt : α → α → Bool)
    (htrans : ∀ a b c, lt a b = true → lt b c = true → lt a c = true)
    (hasymm : ∀ a b, lt a b = true → lt b a = false)
    (l : List α) (x : α) (rest : List α)
    (hsort : pySortBy lt l = x :: rest) :
    ∀ y ∈ l, lt y x = false := by
  intro y hy
  have hmem : y ∈ x :: rest := by
    rw [← hsort]
    exact (mem_pySortBy lt y l).mpr hy
  rcases List.mem_cons.mp hmem with h | h
  · subst h
    cases hxx : lt y y
    · rfl
    · have := hasymm _ _ hxx
      simp_all
  · have hsorted := sortedB_pySortBy lt htrans hasymm l
    rw [hsort, SortedB, List.pairwise_cons] at hsorted
    exact hsorted.1 y h

/-! ### Whitespace stripping, line splitting, percent decoding -/

/-- Python's `str.isspace` for a single character, restricted to the ASCII
whitespace characters (Unicode whitespace beyond ASCII is elided; the URLs
and file names handled by the scripts are ASCII). -/
def pyIsSpace (c : Char) : Bool :=
  c = ' ' || c = '\t' || c = '\n' || c = '\r' || c = '\x0b' || c = '\x0c'

/-- Python's `str.strip()`: drop leading and trailing whitespace. -/
def pyStrip (l : List Char) : List Char :=
  ((l.dropWhile pyIsSpace).reverse.dropWhile pyIsSpace).reverse

/-- Split a character list on a separator character, keeping empty pieces
(the splitting underlying Python's line iteration / `str.split(sep)`). -/
def splitOnChar (sep : Char) : List Char → List (List Char)
  | [] => [[]]
  | c :: rest =>
    if c = sep then [] :: splitOnChar sep rest
    else
      match splitOnChar sep rest with
      | [] => [[c]]
      | line :: more => (c :: line) :: more

/-- The newline translation Python applies when a file is opened in text
mode with the default (universal) newline handling: `\r\n` and bare `\r`
are translated to `\n` before the text reaches the caller. -/
def normalizeNewlines : List Char → List Char
  | [] => []
  | '\r' :: '\n' :: rest => '\n' :: normalizeNewlines rest
  | '\r' :: rest => '\n' :: normalizeNewlines rest
  | c :: rest => c :: normalizeNewlines rest

/-- Python's text-mode line splitting with universal newlines: translate
the line terminators, then split at `\n`.  (The trailing empty piece after
a final terminator is kept here and removed by the non-empty filter of
`stripNonEmptyLines`.) -/
def splitLinesUniv (content : List Char) : List (List Char) :=
  splitOnChar '\n' (normalizeNewlines content)

/-- The queue/history file read pattern used by both
`ROMBrowser.load_download_queue` and `ROMDownloader.download_from_queue`:
`[line.strip() for line in f if line.strip()]`, the file being read in text
mode with universal newlines. -/
def stripNonEmptyLines (content : List Char) : List (List Char) :=
  ((splitLinesUniv content).map pyStrip).filter (fun l => decide (l ≠ []))

/-- Value of one hexadecimal digit, both cases accepted
(as in `urllib.parse.unquote`). -/
def hexVal (c : Char) : Option Nat :=
  if '0' ≤ c ∧ c ≤ '9' then some (c.toNat - '0'.toNat)
  else if 'a' ≤ c ∧ c ≤ 'f' then some (c.toNat - 'a'.toNat + 10)
  else if 'A' ≤ c ∧ c ≤ 'F' then some (c.toNat - 'A'.toNat + 10)
  else none

/-- `urllib.parse.unquote`: decode `%XX` escapes, leaving malformed escapes
untouched.  Each decoded byte becomes one character; the UTF-8 recombination
Python applies to consecutive non-ASCII bytes is elided (all inputs of
interest are ASCII). -/
def percentDecode : List Char → List Char
  | [] => []
  | '%' :: h1 :: h2 :: rest =>
    match hexVal h1, hexVal h2 with
    | some v1, some v2 => Char.ofNat (16 * v1 + v2) :: percentDecode rest
    | _, _ => '%' :: percentDecode (h1 :: h2 :: rest)
  | c :: rest => c :: percentDecode rest

/-- Python's `s.rstrip('/')`: drop every trailing slash. -/
def rstripSlash (l : List Char) : List Char :=
  (l.reverse.dropWhile (fun c => c = '/')).reverse

/-- Python's `s.endswith('/')`. -/
def endsWithSlash (l : List Char) : Bool :=
  match l.getLast? with
  | some '/' => true
  | _ => false

/-- `url.split('/')[-1]`: the last slash-separated component. -/
def lastComponent (url : List Char) : List Char :=
  (splitOnChar '/' url).getLastD []

/-! ### `ROMBrowser` queue persistence and history
(`src/scripts/rom-sourcing/rom_browser.py`) -/

/-- `ROMBrowser.save_download_queue`: write each queue item followed by a
newline.  The result is the text content of the queue file. -/
def save_download_queue : List (List Char) → List Char
  | [] => []
  | item :: rest => item ++ '\n' :: save_download_queue rest

/-- `ROMBrowser.load_download_queue`: a missing file yields an empty queue;
otherwise each line is stripped and empty lines are dropped. -/
def load_download_queue (file : Option (List Char)) : List (List Char) :=
  match file with
  | none => []
  | some content => stripNonEmptyLines content

/-- `ROMBrowser.add_to_history`: append the URL if it is not already
present, then keep only the last 100 entries.  (The subsequent
`save_history` call persists the same list and is not modelled.) -/
def add_to_history (history : List (List Char)) (url : List Char) :
    List (List Char) :=
  if url ∈ history then history
  else
    let h := history ++ [url]
    if 100 < h.length then h.drop (h.length - 100) else h

/-! ### `ROMBrowser.parse_index` and the regex href extraction -/

/-- One attempted match of the regex `href="([^"]+)"` at the head of the
input: the literal prefix `href="`, then a non-empty maximal run of
non-quote characters, then the closing quote.  Returns the capture group and
the characters after the closing quote. -/
def hrefMatch (l : List Char) : Option (List Char × List Char) :=
  match l with
  | 'h' :: 'r' :: 'e' :: 'f' :: '=' :: '"' :: rest =>
    let body := rest.takeWhile (fun c => decide (c ≠ '"'))
    let after := rest.dropWhile (fun c => decide (c ≠ '"'))
    match body, after with
    | [], _ => none
    | _, [] => none
    | b, _ :: tail => some (b, tail)
  | _ => none

/-- Fuel-driven scan for `re.findall(r'href="([^"]+)"', content)`: at each
position try a match; on success continue after the closing quote, otherwise
advance one character.  Every step consumes at least one character, so
`content.length` fuel (as used by `findHrefs`) never runs out. -/
def findHrefsGo : Nat → List Char → List (List Char)
  | 0, _ => []
  | Nat.succ fuel, l =>
    match hrefMatch l with
    | some (b, tail) => b :: findHrefsGo fuel tail
    | none =>
      match l with
      | [] => []
      | _ :: cs => findHrefsGo fuel cs

/-- `re.findall(r'href="([^"]+)"', content)`: all captured href values, in
order of appearance. -/
def findHrefs (content : List Char) : List (List Char) :=
  findHrefsGo content.length content

/-- The href filter of `ROMBrowser.parse_index`: parent links, absolute
links and query links are discarded. -/
def filteredOut (h : List Char) : Bool :=
  decide (h = toChars "../") || decide (h = toChars "..") ||
    listStartsWith (toChars "http") h || decide ('?' ∈ h)

/-- One iteration of the `for href in hrefs` loop of
`ROMBrowser.parse_index`, acting on the `(directories, files)` accumulator. -/
def parseStep (acc : List (List Char) × List (List Char)) (href : List Char) :
    List (List Char) × List (List Char) :=
  if filteredOut href then acc
  else
    let decoded := percentDecode href
    if endsWithSlash href then
      let dirName := rstripSlash decoded
      if dirName ≠ [] ∧ dirName ∉ acc.1 then (acc.1 ++ [dirName], acc.2)
      else acc
    else
      if decoded ≠ [] ∧ decoded ∉ acc.2 then (acc.1, acc.2 ++ [decoded])
      else acc

/-- `ROMBrowser.parse_index`: extract hrefs, classify them into directories
and files, then sort both lists with Python's `list.sort()`. -/
def parse_index (content : List Char) :
    List (List Char) × List (List Char) :=
  let hrefs := findHrefs content
  let p := hrefs.foldl parseStep ([], [])
  (pySortBy listLtChar p.1, pySortBy listLtChar p.2)

/-! ### `ROMDownloader` (`src/scripts/rom-sourcing/rom_downloader.py`) -/

/-- The `download_stats` counters of `ROMDownloader.__init__`. -/
structure DownloadStats where
  total_files : Nat
  downloaded_files : Nat
  failed_files : Nat
  skipped_files : Nat
  total_size : Nat
  downloaded_size : Nat

/-- Fresh statistics at the start of a run. -/
def initStats : DownloadStats :=
  { total_files := 0, downloaded_files := 0, failed_files := 0,
    skipped_files := 0, total_size := 0, downloaded_size := 0 }

/-- The network oracle: `headSize url` is what `get_file_size` returns for
the HEAD request (0 on any failure or missing header); `getResult url` is
the outcome of the streaming GET together with the following write loop —
`some n` when it completes having written `n` bytes, `none` when any
exception is raised during the request or the write. -/
structure NetEnv where
  headSize : List Char → Nat
  getResult : List Char → Option Nat

/-- Result of `ROMDownloader.download_file`: the returned boolean, the
files present in the download directory afterwards, the updated statistics,
and the list of URLs for which network requests were attempted (the HEAD of
`get_file_size` and the GET, in order). -/
structure FileResult where
  ok : Bool
  fs : List (List Char)
  stats : DownloadStats
  requests : List (List Char)

/-- `ROMDownloader.download_file`.  If the target file already exists the
download is skipped with no network traffic; otherwise the size is fetched,
`total_size` updated, and the GET either succeeds (file written, counters
updated) or raises (caught: `failed_files` incremented, `False` returned).
A write failure is modelled as leaving the directory unchanged; a partially
written file is not modelled. -/
def download_file (env : NetEnv) (fs : List (List Char))
    (stats : DownloadStats) (url filename : List Char) : FileResult :=
  if filename ∈ fs then
    { ok := true, fs := fs,
      stats := { stats with skipped_files := stats.skipped_files + 1 },
      requests := [] }
  else
    let size := env.headSize url
    let stats1 := { stats with total_size := stats.total_size + size }
    match env.getResult url with
    | some n =>
      { ok := true, fs := fs ++ [filename],
        stats := { stats1 with
          downloaded_files := stats1.downloaded_files + 1,
          downloaded_size := stats1.downloaded_size + n },
        requests := [url, url] }
    | none =>
      { ok := false, fs := fs,
        stats := { stats1 with failed_files := stats1.failed_files + 1 },
        requests := [url, url] }

/-- Result of `ROMDownloader.download_from_queue`: files on disk, final
statistics, and whether the queue file was deleted. -/
structure QueueResult where
  fs : List (List Char)
  stats : DownloadStats
  queueDeleted : Bool

/-- `ROMDownloader.download_from_queue`.  `queueFile` is `none` when the
queue file does not exist, `some content` otherwise.  Items are the
stripped non-empty lines; an absent or empty queue returns early without
deleting the file.  Otherwise `total_files` is assigned, each URL is
downloaded in order (the file name being the percent-decoded last URL
component), and the queue file is unlinked after the loop. -/
def download_from_queue (env : NetEnv) (fs : List (List Char))
    (stats : DownloadStats) (queueFile : Option (List Char)) : QueueResult :=
  match queueFile with
  | none => { fs := fs, stats := stats, queueDeleted := false }
  | some content =>
    let items := stripNonEmptyLines content
    if items = [] then { fs := fs, stats := stats, queueDeleted := false }
    else
      let stats1 := { stats with total_files := items.length }
      let r := items.foldl
        (fun (acc : List (List Char) × DownloadStats) url =>
          let fr := download_file env acc.1 acc.2 url
            (percentDecode (lastComponent url))
          (fr.fs, fr.stats))
        (fs, stats1)
      { fs := r.1, stats := r.2, queueDeleted := true }

/-! ### Executable selection
(`src/scripts/shortcuts/create_shortcuts_config.py`, `find_executables`) -/

/-- The `sort_key` closure of `find_executables`, applied to an executable's
file name: `.lnk` shortcuts get −1, names containing `shipping` 3, `win64`
2, `launcher` 1, anything else 0 (all tests on the lowercased name). -/
def sort_key (exeName : List Char) : Int :=
  let name := lowerStr exeName
  if listEndsWith (toChars ".lnk") name then -1
  else if isSubstring (toChars "shipping") name then 3
  else if isSubstring (toChars "win64") name then 2
  else if isSubstring (toChars "launcher") name then 1
  else 0

/-- The comparator induced by `executables.sort(key=lambda x: (sort_key(x),
x.name.lower()))`: lexicographic on the `(rank, lowercase name)` tuple. -/
def exeLt (a b : List Char) : Bool :=
  sort_key a < sort_key b ||
    (sort_key a = sort_key b && listLtChar (lowerStr a) (lowerStr b))

/-- The per-group selection of `find_executables`: sort the group's
candidates by `(sort_key, lowercase name)` ascending and take the first. -/
def selectExecutable (executables : List (List Char)) : Option (List Char) :=
  match pySortBy exeLt executables with
  | [] => none
  | x :: _ => some x

/-- The ranking as the specification words it (for comparison with the
code): `.lnk` shortcut files most preferred, then `shipping`, then `win64`,
then `launcher`, then everything else. -/
def specSortKey (exeName : List Char) : Int :=
  let name := lowerStr exeName
  if listEndsWith (toChars ".lnk") name then -1
  else if isSubstring (toChars "shipping") name then 0
  else if isSubstring (toChars "win64") name then 1
  else if isSubstring (toChars "launcher") name then 2
  else 3

/-- The spec-side comparator and selection corresponding to `specSortKey`. -/
def specExeLt (a b : List Char) : Bool :=
  specSortKey a < specSortKey b ||
    (specSortKey a = specSortKey b && listLtChar (lowerStr a) (lowerStr b))

/-- Selection under the specification's reading of the ranking. -/
def specSelectExecutable (executables : List (List Char)) :
    Option (List Char) :=
  match pySortBy specExeLt executables with
  | [] => none
  | x :: _ => some x

/-! ### `CustomRatingsManager`
(`src/external/GameShortcuts/custom_ratings_manager.py`) -/

/-- One value of the `custom_data` dict: an optional rating and a tag
list. -/
structure RatingEntry where
  rating : Option ℚ
  tags : List (List Char)

/-- The `custom_data` dict as an association list with unique keys. -/
abbrev CustomData : Type := List (List Char × RatingEntry)

/-- Python `game_name in self.custom_data` / `self.custom_data[game_name]`
lookup. -/
def lookupData : CustomData → List Char → Option RatingEntry
  | [], _ => none
  | (k, e) :: rest, n => if k = n then some e else lookupData rest n

/-- `self.custom_data[game_name]["rating"] = rating` on an existing key. -/
def updateRating : CustomData → List Char → ℚ → CustomData
  | [], _, _ => []
  | (k, e) :: rest, n, r =>
    if k = n then (k, { e with rating := some r }) :: rest
    else (k, e) :: updateRating rest n r

/-- `CustomRatingsManager.set_custom_rating`: validate the rating is within
[0, 10]; if so, create the entry when absent and store the rating,
returning `True`; otherwise return `False` leaving the data unchanged.
(The `save_data` call persists the same dict and is not modelled; the
`float()` conversion is total on the numeric inputs modelled here.) -/
def set_custom_rating (data : CustomData) (game_name : List Char) (r : ℚ) :
    Bool × CustomData :=
  if 0 ≤ r ∧ r ≤ 10 then
    let d := if (lookupData data game_name).isSome then data
             else data ++ [(game_name, { rating := none, tags := [] })]
    (true, updateRating d game_name r)
  else (false, data)

/-- `CustomRatingsManager.get_custom_rating`. -/
def get_custom_rating (data : CustomData) (game_name : List Char) :
    Option ℚ :=
  match lookupData data game_name with
  | some e => e.rating
  | none => none

/-- `CustomRatingsManager.get_final_rating`: the custom rating when set,
the downloaded rating otherwise. -/
def get_final_rating (data : CustomData) (game_name : List Char)
    (downloaded_rating : ℚ) : ℚ :=
  match get_custom_rating data game_name with
  | some c => c
  | none => downloaded_rating

/-! ### Supporting lemmas for the ratings manager -/

theorem lookupData_append_self (data : CustomData) (n : List Char)
    (e0 : RatingEntry) (h : lookupData data n = none) :
    lookupData (data ++ [(n, e0)]) n = some e0 := by
  induction data with
  | nil => simp [lookupData]
  | cons p rest ih =>
    obtain ⟨k, e⟩ := p
    simp only [lookupData] at h ⊢
    by_cases hk : k = n
    · simp [hk] at h
    · rw [if_neg hk] at h ⊢
      exact ih h

theorem get_custom_rating_updateRating (data : CustomData) (n : List Char)
    (r : ℚ) (h : (lookupData data n).isSome = true) :
    get_custom_rating (updateRating data n r) n = some r := by
  induction data with
  | nil => simp [lookupData] at h
  | cons p rest ih =>
    obtain ⟨k, e⟩ := p
    by_cases hk : k = n
    · simp [get_custom_rating, updateRating, lookupData, hk]
    · simp only [lookupData, if_neg hk] at h
      simp only [get_custom_rating, updateRating, if_neg hk, lookupData]
      exact ih h

/-- C9: a custom rating set through `set_custom_rating` (within [0, 10])
overrides the downloaded rating in `get_final_rating`; with no custom
rating the downloaded one is returned; a rating outside [0, 10] is rejected
with `False` and the stored data is unchanged. -/
theorem custom_rating_override_and_validation :
    (∀ (data : CustomData) (name : List Char) (r d : ℚ), 0 ≤ r → r ≤ 10 →
      get_final_rating (set_custom_rating data name r).2 name d = r)
    ∧ (∀ (data : CustomData) (name : List Char) (d : ℚ),
        get_custom_rating data name = none →
        get_final_rating data name d = d)
    ∧ (∀ (data : CustomData) (name : List Char) (r : ℚ), (r < 0 ∨ 10 < r) →
        set_custom_rating data name r = (false, data)) := by
  refine ⟨?_, ?_, ?_⟩
  · intro data name r d h0 h10
    unfold set_custom_rating
    rw [if_pos ⟨h0, h10⟩]
    by_cases hs : (lookupData data name).isSome = true
    · simp only [hs, if_true]
      unfold get_final_rating
      rw [get_custom_rating_updateRating data name r hs]
    · simp only [hs, if_false, Bool.false_eq_true]
      have hnone : lookupData data name = none := by
        cases hl : lookupData data name
        · rfl
        · rw [hl] at hs; simp at hs
      have : (lookupData (data ++ [(name, ⟨none, []⟩)]) name).isSome = true := by
        rw [lookupData_append_self data name _ hnone]; rfl
      unfold get_final_rating
      rw [get_custom_rating_updateRating _ name r this]
  · intro data name d h
    unfold get_final_rating
    rw [h]
  · intro data name r h
    unfold set_custom_rating
    rw [if_neg]
    rintro ⟨h0, h10⟩
    rcases h with h | h
    · exact absurd h0 (not_le.mpr h)
    · exact absurd h10 (not_le.mpr h)

/-- Witness for C9 at concrete inputs: setting 8.5 overrides a downloaded
7.0; with no custom rating 6.5 passes through; 11 is rejected leaving the
empty store unchanged. -/
theorem custom_rating_override_and_validation_witness :
    get_final_rating
        (set_custom_rating [] (toChars "Test Game") (17/2 : ℚ)).2
        (toChars "Test Game") (7 : ℚ) = (17/2 : ℚ)
    ∧ get_final_rating [] (toChars "Another Game") (13/2 : ℚ) = (13/2 : ℚ)
    ∧ set_custom_rating [] (toChars "Test Game") (11 : ℚ) = (false, []) :=
  ⟨custom_rating_override_and_validation.1 [] (toChars "Test Game")
      (17/2 : ℚ) 7 (by norm_num) (by norm_num),
   custom_rating_override_and_validation.2.1 [] (toChars "Another Game")
      (13/2 : ℚ) rfl,
   custom_rating_override_and_validation.2.2 [] (toChars "Test Game")
      (11 : ℚ) (Or.inr (by norm_num))⟩

/-! ### Supporting lemmas for the downloader -/

theorem download_file_skip (env : NetEnv) (fs : List (List Char))
    (stats : DownloadStats) (url fn : List Char) (hmem : fn ∈ fs) :
    download_file env fs stats url fn =
      { ok := true, fs := fs,
        stats := { stats with skipped_files := stats.skipped_files + 1 },
        requests := [] } := by
  unfold download_file
  rw [if_pos hmem]

theorem download_file_success (env : NetEnv) (fs : List (List Char))
    (stats : DownloadStats) (url fn : List Char) (n : Nat)
    (hmem : fn ∉ fs) (hget : env.getResult url = some n) :
    download_file env fs stats url fn =
      { ok := true, fs := fs ++ [fn],
        stats := { stats with
          total_size := stats.total_size + env.headSize url,
          downloaded_files := stats.downloaded_files + 1,
          downloaded_size := stats.downloaded_size + n },
        requests := [url, url] } := by
  unfold download_file
  rw [if_neg hmem]
  simp only [hget]

theorem download_file_failure (env : NetEnv) (fs : List (List Char))
    (stats : DownloadStats) (url fn : List Char)
    (hmem : fn ∉ fs) (hget : env.getResult url = none) :
    download_file env fs stats url fn =
      { ok := false, fs := fs,
        stats := { stats with
          total_size := stats.total_size + env.headSize url,
          failed_files := stats.failed_files + 1 },
        requests := [url, url] } := by
  unfold download_file
  rw [if_neg hmem]
  simp only [hget]

/-- The number of items a statistics record has accounted for. -/
def processedSum (s : DownloadStats) : Nat :=
  s.downloaded_files + s.failed_files + s.skipped_files

theorem processedSum_download_file (env : NetEnv) (fs : List (List Char))
    (stats : DownloadStats) (url fn : List Char) :
    processedSum (download_file env fs stats url fn).stats
      = processedSum stats + 1 := by
  unfold download_file
  by_cases hmem : fn ∈ fs
  · rw [if_pos hmem]; simp [processedSum]; omega
  · rw [if_neg hmem]
    cases hget : env.getResult url <;> simp [processedSum] <;> omega

theorem processedSum_queue_loop (env : NetEnv) :
    ∀ (items : List (List Char)) (fs : List (List Char))
      (stats : DownloadStats),
      processedSum (items.foldl
        (fun (acc : List (List Char) × DownloadStats) url =>
          let fr := download_file env acc.1 acc.2 url
            (percentDecode (lastComponent url))
          (fr.fs, fr.stats)) (fs, stats)).2
      = processedSum stats + items.length := by
  intro items
  induction items with
  | nil => intro fs stats; simp
  | cons url rest ih =>
    intro fs stats
    simp only [List.foldl_cons, List.length_cons]
    rw [ih]
    rw [processedSum_download_file]
    omega

theorem download_from_queue_some (env : NetEnv) (fs : List (List Char))
    (stats : DownloadStats) (content : List Char) :
    download_from_queue env fs stats (some content) =
      (if stripNonEmptyLines content = []
       then { fs := fs, stats := stats, queueDeleted := false }
       else
         { fs := ((stripNonEmptyLines content).foldl
             (fun (acc : List (List Char) × DownloadStats) url =>
               let fr := download_file env acc.1 acc.2 url
                 (percentDecode (lastComponent url))
               (fr.fs, fr.stats))
             (fs, { stats with
               total_files := (stripNonEmptyLines content).length })).1,
           stats := ((stripNonEmptyLines content).foldl
             (fun (acc : List (List Char) × DownloadStats) url =>
               let fr := download_file env acc.1 acc.2 url
                 (percentDecode (lastComponent url))
               (fr.fs, fr.stats))
             (fs, { stats with
               total_files := (stripNonEmptyLines content).length })).2,
           queueDeleted := true }) := rfl

/-- C2: if the target file already exists, `download_file` bumps
`skipped_files`, returns success, issues no network request and leaves the
directory untouched; hence downloading the same URL/filename twice (the
first attempt succeeding) leaves exactly one copy on disk and the second
attempt is counted as skipped. -/
theorem download_file_idempotent_skip :
    (∀ (env : NetEnv) (fs : List (List Char)) (stats : DownloadStats)
        (url fn : List Char), fn ∈ fs →
      download_file env fs stats url fn =
        { ok := true, fs := fs,
          stats := { stats with skipped_files := stats.skipped_files + 1 },
          requests := [] })
    ∧ (∀ (env : NetEnv) (fs : List (List Char)) (stats : DownloadStats)
        (url fn : List Char) (n : Nat), fn ∉ fs →
        env.getResult url = some n →
      (download_file env fs stats url fn).fs = fs ++ [fn]
      ∧ (download_file env fs stats url fn).ok = true
      ∧ (download_file env (download_file env fs stats url fn).fs
           (download_file env fs stats url fn).stats url fn).stats.skipped_files
          = (download_file env fs stats url fn).stats.skipped_files + 1
      ∧ (download_file env (download_file env fs stats url fn).fs
           (download_file env fs stats url fn).stats url fn).fs
          = (download_file env fs stats url fn).fs
      ∧ ((download_file env fs stats url fn).fs.count fn = 1)) := by
  constructor
  · intro env fs stats url fn hmem
    exact download_file_skip env fs stats url fn hmem
  · intro env fs stats url fn n hmem hget
    have h1 := download_file_success env fs stats url fn n hmem hget
    have hmem2 : fn ∈ fs ++ [fn] := by simp
    refine ⟨by rw [h1], by rw [h1], ?_, ?_, ?_⟩
    · rw [h1]
      rw [download_file_skip env _ _ url fn hmem2]
    · rw [h1]
      rw [download_file_skip env _ _ url fn hmem2]
    · rw [h1]
      simp only [List.count_append, List.count_singleton]
      rw [List.count_eq_zero.mpr hmem]
      simp

/-- Witness for C2 at a concrete input. -/
theorem download_file_idempotent_skip_witness :
    download_file ⟨fun _ => 0, fun _ => some 4⟩ [toChars "A.zip"] initStats
        (toChars "u") (toChars "A.zip") =
      { ok := true, fs := [toChars "A.zip"],
        stats := { initStats with skipped_files := 1 },
        requests := [] }
    ∧ (download_file ⟨fun _ => 0, fun _ => some 4⟩ [] initStats
        (toChars "u") (toChars "B.zip")).fs.count (toChars "B.zip") = 1 :=
  ⟨download_file_idempotent_skip.1 ⟨fun _ => 0, fun _ => some 4⟩
      [toChars "A.zip"] initStats (toChars "u") (toChars "A.zip")
      (by simp),
   (download_file_idempotent_skip.2 ⟨fun _ => 0, fun _ => some 4⟩
      [] initStats (toChars "u") (toChars "B.zip") 4
      (by simp) rfl).2.2.2.2⟩

/-- C7: an exception during the request or write makes `download_file`
return failure with `failed_files` incremented by exactly one (the file
list unchanged), and the queue loop of `download_from_queue` still
processes every queued item: the downloaded/failed/skipped counters
together grow by exactly the number of queue items, so no failure aborts
the batch. -/
theorem download_failure_counted_and_loop_continues :
    (∀ (env : NetEnv) (fs : List (List Char)) (stats : DownloadStats)
        (url fn : List Char), fn ∉ fs → env.getResult url = none →
      download_file env fs stats url fn =
        { ok := false, fs := fs,
          stats := { stats with
            total_size := stats.total_size + env.headSize url,
            failed_files := stats.failed_files + 1 },
          requests := [url, url] })
    ∧ (∀ (env : NetEnv) (fs : List (List Char)) (stats : DownloadStats)
        (content : List Char),
      processedSum (download_from_queue env fs stats (some content)).stats
        = processedSum stats + (stripNonEmptyLines content).length) := by
  constructor
  · exact download_file_failure
  · intro env fs stats content
    rw [download_from_queue_some]
    by_cases hitems : stripNonEmptyLines content = []
    · rw [if_pos hitems, hitems]
      simp
    · rw [if_neg hitems]
      simp only
      rw [processedSum_queue_loop]
      simp [processedSum]

/-- Witness for C7 at a concrete input: one failing queue item is counted
as failed and the loop accounts for both items of a two-item queue. -/
theorem download_failure_counted_witness :
    download_file ⟨fun _ => 7, fun _ => none⟩ [] initStats
        (toChars "u") (toChars "f.zip") =
      { ok := false, fs := [],
        stats := { initStats with total_size := 7, failed_files := 1 },
        requests := [toChars "u", toChars "u"] }
    ∧ processedSum (download_from_queue ⟨fun _ => 7, fun _ => none⟩ []
        initStats (some (toChars "https://h/a.zip\nhttps://h/b.zip\n"))).stats
      = processedSum initStats + 2 := by
  constructor
  · exact download_failure_counted_and_loop_continues.1
      ⟨fun _ => 7, fun _ => none⟩ [] initStats (toChars "u")
      (toChars "f.zip") (by simp) rfl
  · have h := download_failure_counted_and_loop_continues.2
      ⟨fun _ => 7, fun _ => none⟩ [] initStats
      (toChars "https://h/a.zip\nhttps://h/b.zip\n")
    rw [h]
    norm_num [stripNonEmptyLines]
    decide

/-- C10: whenever the queue file exists and parses to a non-empty item
list, `download_from_queue` deletes the queue file after the loop, for
every network oracle — in particular also when downloads failed, so failed
items are dropped rather than re-queued. -/
theorem queue_deleted_even_on_failures (env : NetEnv)
    (fs : List (List Char)) (stats : DownloadStats) (content : List Char)
    (h : stripNonEmptyLines content ≠ []) :
    (download_from_queue env fs stats (some content)).queueDeleted = true := by
  rw [download_from_queue_some]
  rw [if_neg h]

/-- Witness for C10 at a concrete input: a one-item queue whose download
fails still ends with the queue file deleted and `failed_files = 1`. -/
theorem queue_deleted_even_on_failures_witness :
    stripNonEmptyLines (toChars "https://host/x.zip\n") ≠ []
    ∧ (download_from_queue ⟨fun _ => 0, fun _ => none⟩ [] initStats
        (some (toChars "https://host/x.zip\n"))).queueDeleted = true
    ∧ (download_from_queue ⟨fun _ => 0, fun _ => none⟩ [] initStats
        (some (toChars "https://host/x.zip\n"))).stats.failed_files = 1 :=
  ⟨by decide,
   queue_deleted_even_on_failures ⟨fun _ => 0, fun _ => none⟩ [] initStats
      (toChars "https://host/x.zip\n") (by decide),
   by decide⟩

/-- The queue file content of the C1 scenario: exactly the two URLs
`https://host/files/A.zip` and `https://host/files/B.zip`. -/
def queueContentAB : List Char :=
  toChars "https://host/files/A.zip\nhttps://host/files/B.zip\n"

/-- C1: with `A.zip` already on disk, `B.zip` absent, and the download of
`B.zip` succeeding, a fresh `download_from_queue` run over the two-URL
queue ends with `total_files = 2`, `downloaded_files = 1`,
`skipped_files = 1`, `failed_files = 0`, and the queue file deleted. -/
theorem queue_batch_scenario (env : NetEnv) (fs : List (List Char)) (n : Nat)
    (hA : toChars "A.zip" ∈ fs) (hB : toChars "B.zip" ∉ fs)
    (hget : env.getResult (toChars "https://host/files/B.zip") = some n) :
    (download_from_queue env fs initStats (some queueContentAB)).stats.total_files = 2
    ∧ (download_from_queue env fs initStats (some queueContentAB)).stats.downloaded_files = 1
    ∧ (download_from_queue env fs initStats (some queueContentAB)).stats.skipped_files = 1
    ∧ (download_from_queue env fs initStats (some queueContentAB)).stats.failed_files = 0
    ∧ (download_from_queue env fs initStats (some queueContentAB)).queueDeleted = true := by
  have hitems : stripNonEmptyLines queueContentAB =
      [toChars "https://host/files/A.zip", toChars "https://host/files/B.zip"] := by
    decide
  have hfnA : percentDecode (lastComponent (toChars "https://host/files/A.zip"))
      = toChars "A.zip" := by decide
  have hfnB : percentDecode (lastComponent (toChars "https://host/files/B.zip"))
      = toChars "B.zip" := by decide
  have hred : download_from_queue env fs initStats (some queueContentAB) =
      { fs := (fs ++ [toChars "B.zip"]),
        stats := { total_files := 2, downloaded_files := 1, failed_files := 0,
                   skipped_files := 1,
                   total_size := env.headSize (toChars "https://host/files/B.zip"),
                   downloaded_size := n },
        queueDeleted := true } := by
    rw [download_from_queue_some, hitems]
    rw [if_neg (by simp)]
    simp only [List.foldl_cons, List.foldl_nil, List.length_cons,
      List.length_nil, hfnA, hfnB]
    rw [download_file_skip env fs _ _ _ hA]
    rw [download_file_success env fs _ _ _ n hB hget]
    simp [initStats]
  rw [hred]
  exact ⟨rfl, rfl, rfl, rfl, rfl⟩

/-- Witness for C1 at a concrete input. -/
theorem queue_batch_scenario_witness :
    (download_from_queue ⟨fun _ => 0, fun _ => some 3⟩ [toChars "A.zip"]
        initStats (some queueContentAB)).stats.total_files = 2
    ∧ (download_from_queue ⟨fun _ => 0, fun _ => some 3⟩ [toChars "A.zip"]
        initStats (some queueContentAB)).stats.downloaded_files = 1
    ∧ (download_from_queue ⟨fun _ => 0, fun _ => some 3⟩ [toChars "A.zip"]
        initStats (some queueContentAB)).stats.skipped_files = 1
    ∧ (download_from_queue ⟨fun _ => 0, fun _ => some 3⟩ [toChars "A.zip"]
        initStats (some queueContentAB)).stats.failed_files = 0
    ∧ (download_from_queue ⟨fun _ => 0, fun _ => some 3⟩ [toChars "A.zip"]
        initStats (some queueContentAB)).queueDeleted = true :=
  queue_batch_scenario ⟨fun _ => 0, fun _ => some 3⟩ [toChars "A.zip"] 3
    (by decide) (by decide) rfl

/-! ### C5: queue persistence round trip -/

theorem splitOnChar_append_sep (sep : Char) (u rest : List Char)
    (hu : sep ∉ u) :
    splitOnChar sep (u ++ sep :: rest) = u :: splitOnChar sep rest := by
  induction u with
  | nil => simp [splitOnChar]
  | cons c u' ih =>
    have hc : c ≠ sep := fun h => hu (h ▸ List.mem_cons_self c u')
    have hu' : sep ∉ u' := fun h => hu (List.mem_cons_of_mem c h)
    simp only [List.cons_append, splitOnChar, if_neg hc, List.append_eq]
    rw [ih hu']

theorem normalizeNewlines_cons_other (c : Char) (l : List Char)
    (hc : c ≠ '\r') :
    normalizeNewlines (c :: l) = c :: normalizeNewlines l := by
  conv_lhs => unfold normalizeNewlines
  split
  · rename_i heq
    simp at heq
  · rename_i heq
    injection heq with h1 h2
    exact absurd h1 hc
  · rename_i heq
    injection heq with h1 h2
    exact absurd h1 hc
  · rename_i heq
    injection heq with h1 h2
    rw [h1, h2]

theorem normalizeNewlines_append_of_no_cr (u t : List Char)
    (hr : '\r' ∉ u) :
    normalizeNewlines (u ++ t) = u ++ normalizeNewlines t := by
  induction u with
  | nil => rfl
  | cons c u' ih =>
    have hc : c ≠ '\r' := fun h => hr (h ▸ List.mem_cons_self c u')
    have hr' : '\r' ∉ u' := fun h => hr (List.mem_cons_of_mem c h)
    rw [List.cons_append, normalizeNewlines_cons_other c _ hc, ih hr',
      List.cons_append]

theorem splitLinesUniv_append_newline (u rest : List Char)
    (hn : '\n' ∉ u) (hr : '\r' ∉ u) :
    splitLinesUniv (u ++ '\n' :: rest) = u :: splitLinesUniv rest := by
  unfold splitLinesUniv
  rw [normalizeNewlines_append_of_no_cr u ('\n' :: rest) hr]
  rw [normalizeNewlines_cons_other '\n' rest (by decide)]
  exact splitOnChar_append_sep '\n' u (normalizeNewlines rest) hn

theorem stripNonEmptyLines_save (queue : List (List Char))
    (h : ∀ u ∈ queue, u ≠ [] ∧ '\n' ∉ u ∧ '\r' ∉ u ∧ pyStrip u = u) :
    stripNonEmptyLines (save_download_queue queue) = queue := by
  induction queue with
  | nil => decide
  | cons u rest ih =>
    obtain ⟨hne, hnl, hcr, hstrip⟩ := h u (List.mem_cons_self u rest)
    have hrest := ih (fun v hv => h v (List.mem_cons_of_mem u hv))
    simp only [save_download_queue]
    unfold stripNonEmptyLines
    rw [splitLinesUniv_append_newline u (save_download_queue rest) hnl hcr]
    simp only [List.map_cons, List.filter_cons, hstrip]
    rw [decide_eq_true hne]
    unfold stripNonEmptyLines at hrest
    rw [hrest]
    rw [if_pos rfl]

/-- C5 (as amended): saving and reloading the download queue is the
identity for queues of URLs that are non-empty, contain no line
terminator (neither `\n` nor `\r` — text-mode reading splits lines at
either), and carry no leading or trailing whitespace (they equal their own
`strip()`). -/
theorem queue_round_trip (queue : List (List Char))
    (h : ∀ u ∈ queue, u ≠ [] ∧ '\n' ∉ u ∧ '\r' ∉ u ∧ pyStrip u = u) :
    load_download_queue (some (save_download_queue queue)) = queue := by
  unfold load_download_queue
  exact stripNonEmptyLines_save queue h

/-- Counterexample to C5 as stated, twice over: the queue `[" x"]` — the
URL is non-empty and newline-free, yet reloading returns `["x"]` because
each line is stripped — and the queue `["a\rb"]` — also non-empty,
`\n`-free and strip-invariant, yet reloading returns `["a", "b"]` because
universal-newlines reading splits the line at the bare carriage return. -/
theorem queue_round_trip_counterexample :
    ((toChars " x" ≠ [] ∧ '\n' ∉ toChars " x")
      ∧ load_download_queue (some (save_download_queue [toChars " x"]))
          = [toChars "x"]
      ∧ load_download_queue (some (save_download_queue [toChars " x"]))
          ≠ [toChars " x"])
    ∧ ((toChars "a\rb" ≠ [] ∧ '\n' ∉ toChars "a\rb"
          ∧ pyStrip (toChars "a\rb") = toChars "a\rb")
      ∧ load_download_queue (some (save_download_queue [toChars "a\rb"]))
          = [toChars "a", toChars "b"]
      ∧ load_download_queue (some (save_download_queue [toChars "a\rb"]))
          ≠ [toChars "a\rb"]) := by
  refine ⟨⟨⟨by decide, by decide⟩, by decide, by decide⟩,
    ⟨⟨by decide, by decide, by decide⟩, by decide, by decide⟩⟩

/-- Witness for C5's amended round trip at a concrete input. -/
theorem queue_round_trip_witness :
    load_download_queue (some (save_download_queue
      [toChars "https://h/a.zip", toChars "https://h/b.zip"]))
      = [toChars "https://h/a.zip", toChars "https://h/b.zip"] :=
  queue_round_trip [toChars "https://h/a.zip", toChars "https://h/b.zip"]
    (by decide)

/-! ### C6: history truncation -/

/-- The last `n` entries of a list (Python's `l[-n:]`, here for `n` at most
the length). -/
def lastN (n : Nat) (l : List (List Char)) : List (List Char) :=
  l.drop (l.length - n)

theorem add_to_history_eq (history : List (List Char)) (url : List Char)
    (h : url ∉ history) :
    add_to_history history url = lastN 100 (history ++ [url]) := by
  unfold add_to_history lastN
  rw [if_neg h]
  simp only [List.length_append, List.length_singleton]
  by_cases hl : 100 < history.length + 1
  · rw [if_pos hl]
  · rw [if_neg hl]
    have : history.length + 1 - 100 = 0 := by omega
    rw [this, List.drop_zero]

theorem lastN_append_lastN (n : Nat) (xs ys : List (List Char)) :
    lastN n (lastN n xs ++ ys) = lastN n (xs ++ ys) := by
  unfold lastN
  by_cases hx : n ≤ xs.length
  · have h1 : List.drop (xs.length - n) xs ++ ys
        = List.drop (xs.length - n) (xs ++ ys) :=
      (List.drop_append_of_le_length (by omega)).symm
    rw [h1, List.drop_drop]
    congr 1
    simp only [List.length_drop, List.length_append]
    omega
  · have h0 : xs.length - n = 0 :=
      Nat.sub_eq_zero_of_le (Nat.le_of_lt (Nat.lt_of_not_le hx))
    rw [h0, List.drop_zero]

theorem history_fold_lastN :
    ∀ (urls pre : List (List Char)), (pre ++ urls).Nodup →
      urls.foldl add_to_history (lastN 100 pre) = lastN 100 (pre ++ urls) := by
  intro urls
  induction urls with
  | nil => intro pre _; simp
  | cons u rest ih =>
    intro pre hnd
    have hu : u ∉ pre := by
      rw [List.nodup_append] at hnd
      exact fun hmem => hnd.2.2 hmem (List.mem_cons_self u rest)
    have hu' : u ∉ lastN 100 pre := fun hmem => hu (List.mem_of_mem_drop hmem)
    simp only [List.foldl_cons]
    rw [add_to_history_eq _ _ hu', lastN_append_lastN]
    have hnd' : ((pre ++ [u]) ++ rest).Nodup := by
      rw [List.append_assoc]
      simpa using hnd
    have := ih (pre ++ [u]) hnd'
    rw [this]
    simp

/-- C6: appending more than 100 pairwise-distinct URLs to an initially
empty history leaves exactly the most recent 100 in append order, and a
single `add_to_history` call never grows a history of at most 100 entries
beyond 100. -/
theorem history_truncation :
    (∀ urls : List (List Char), urls.Nodup → 100 < urls.length →
      urls.foldl add_to_history [] = urls.drop (urls.length - 100)
      ∧ (urls.foldl add_to_history []).length = 100)
    ∧ (∀ (history : List (List Char)) (url : List Char),
        history.length ≤ 100 → (add_to_history history url).length ≤ 100) := by
  constructor
  · intro urls hnd hlen
    have h0 : urls.foldl add_to_history (lastN 100 []) = lastN 100 ([] ++ urls) :=
      history_fold_lastN urls [] (by simpa using hnd)
    simp only [lastN, List.nil_append, List.length_nil, Nat.zero_sub,
      List.drop_zero] at h0
    refine ⟨h0, ?_⟩
    rw [h0]
    simp only [List.length_drop]
    omega
  · intro history url hlen
    unfold add_to_history
    by_cases hmem : url ∈ history
    · rw [if_pos hmem]; exact hlen
    · rw [if_neg hmem]
      simp only [List.length_append, List.length_singleton]
      by_cases hl : 100 < history.length + 1
      · rw [if_pos hl]
        simp only [List.length_drop, List.length_append, List.length_singleton]
        omega
      · rw [if_neg hl]
        simp only [List.length_append, List.length_singleton]
        omega

/-- Witness for C6: 101 distinct one-character URLs; the fold retains the
last 100, and one call on a full history keeps it at 100 entries. -/
theorem history_truncation_witness :
    (((List.range 101).map (fun k => [Char.ofNat (65 + k)])).Nodup
      ∧ 100 < ((List.range 101).map (fun k => [Char.ofNat (65 + k)])).length)
    ∧ ((List.range 101).map (fun k => [Char.ofNat (65 + k)])).foldl
        add_to_history []
      = ((List.range 101).map (fun k => [Char.ofNat (65 + k)])).drop 1
    ∧ (add_to_history [toChars "u"] (toChars "v")).length ≤ 100 := by
  have hnd : ((List.range 101).map (fun k => [Char.ofNat (65 + k)])).Nodup := by
    decide
  have hlen : 100 < ((List.range 101).map (fun k => [Char.ofNat (65 + k)])).length := by
    decide
  have h := (history_truncation.1 _ hnd hlen).1
  have hdrop : ((List.range 101).map (fun k => [Char.ofNat (65 + k)])).length - 100 = 1 := by
    decide
  rw [hdrop] at h
  exact ⟨⟨hnd, hlen⟩, h, history_truncation.2 [toChars "u"] (toChars "v") (by decide)⟩

/-! ### C4: ordering of the parsed listings -/

/-- The order the claim asserts: for every two adjacent entries the
lowercase form of the earlier is at most the lowercase form of the later. -/
def ciSortedB : List (List Char) → Bool
  | [] => true
  | [_] => true
  | a :: b :: rest =>
    !listLtChar (lowerStr b) (lowerStr a) && ciSortedB (b :: rest)

/-- Counterexample to C4 as stated: an index holding `a.zip` and `B.zip`.
Python's `list.sort()` is case-sensitive, so the file list comes back as
`["B.zip", "a.zip"]`, which is not sorted case-insensitively. -/
theorem parse_index_ci_sorted_counterexample :
    (parse_index (toChars "<a href=\"a.zip\"><a href=\"B.zip\">")).2
      = [toChars "B.zip", toChars "a.zip"]
    ∧ ciSortedB ((parse_index
        (toChars "<a href=\"a.zip\"><a href=\"B.zip\">")).2) = false := by
  constructor
  · decide
  · decide

/-- C4 (as amended): both lists returned by `parse_index` are sorted
case-sensitively, by code point (Python's default string order), for every
input content. -/
theorem parse_index_sorted (content : List Char) :
    SortedB listLtChar (parse_index content).1
    ∧ SortedB listLtChar (parse_index content).2 :=
  ⟨sortedB_pySortBy listLtChar listLtChar_trans listLtChar_asymm _,
   sortedB_pySortBy listLtChar listLtChar_trans listLtChar_asymm _⟩

/-! ### C8: executable selection ranking -/

theorem exeLt_trans : ∀ a b c : List Char,
    exeLt a b = true → exeLt b c = true → exeLt a c = true := by
  intro a b c hab hbc
  simp only [exeLt, Bool.or_eq_true, Bool.and_eq_true, decide_eq_true_eq]
    at hab hbc ⊢
  rcases hab with h1 | ⟨h1, h2⟩ <;> rcases hbc with h3 | ⟨h3, h4⟩
  · exact Or.inl (lt_trans h1 h3)
  · exact Or.inl (by omega)
  · exact Or.inl (by omega)
  · exact Or.inr ⟨by omega, listLtChar_trans _ _ _ h2 h4⟩

theorem exeLt_asymm : ∀ a b : List Char,
    exeLt a b = true → exeLt b a = false := by
  intro a b hab
  simp only [exeLt, Bool.or_eq_true, Bool.and_eq_true, decide_eq_true_eq]
    at hab
  simp only [exeLt, Bool.or_eq_false_iff, Bool.and_eq_false_iff,
    decide_eq_false_iff_not]
  rcases hab with h1 | ⟨h1, h2⟩
  · exact ⟨by omega, Or.inl (by omega)⟩
  · refine ⟨by omega, Or.inr ?_⟩
    rw [listLtChar_asymm _ _ h2]

/-- C8 (as amended): for every non-empty candidate group,
`find_executables` selects exactly one candidate — the minimum under the
tuple `(sort_key, lowercase name)` with ranks `.lnk` = −1, default = 0,
`launcher` = 1, `win64` = 2, `shipping` = 3 — so `.lnk` shortcuts are most
preferred, then plain names, with `shipping` builds least preferred. -/
theorem find_executables_selection (group : List (List Char))
    (h : group ≠ []) :
    ∃ sel, selectExecutable group = some sel ∧ sel ∈ group
      ∧ ∀ y ∈ group, exeLt y sel = false := by
  cases hs : pySortBy exeLt group with
  | nil =>
    exfalso
    have hperm := perm_pySortBy exeLt group
    rw [hs] at hperm
    exact h hperm.symm.eq_nil
  | cons sel rest =>
    refine ⟨sel, ?_, ?_, ?_⟩
    · unfold selectExecutable
      rw [hs]
    · have : sel ∈ pySortBy exeLt group := by rw [hs]; exact List.mem_cons_self sel rest
      exact (mem_pySortBy exeLt sel group).mp this
    · exact pySortBy_head_min exeLt exeLt_trans exeLt_asymm group sel rest hs

/-- Witness for C8's amended selection at a concrete two-candidate group. -/
theorem find_executables_selection_witness :
    ∃ sel, selectExecutable [toChars "game.exe", toChars "gamelauncher.exe"]
        = some sel
      ∧ sel ∈ [toChars "game.exe", toChars "gamelauncher.exe"]
      ∧ ∀ y ∈ [toChars "game.exe", toChars "gamelauncher.exe"],
          exeLt y sel = false :=
  find_executables_selection [toChars "game.exe", toChars "gamelauncher.exe"]
    (by decide)

/-- Counterexample to C8 as stated: in a group holding `bar.exe` and
`fooshipping.exe`, the code selects `bar.exe` — the sort is ascending on
the rank, so a name containing `shipping` (rank 3) is least preferred, not
most preferred as the claim's ranking (modelled by `specSelectExecutable`)
would demand. -/
theorem find_executables_pref_counterexample :
    selectExecutable [toChars "bar.exe", toChars "fooshipping.exe"]
      = some (toChars "bar.exe")
    ∧ specSelectExecutable [toChars "bar.exe", toChars "fooshipping.exe"]
      = some (toChars "fooshipping.exe")
    ∧ toChars "bar.exe" ≠ toChars "fooshipping.exe" := by
  refine ⟨by decide, by decide, by decide⟩

/-! ### C3: classification performed by `parse_index` -/

theorem hrefMatch_body_ne_nil (l b tail : List Char)
    (h : hrefMatch l = some (b, tail)) : b ≠ [] := by
  unfold hrefMatch at h
  split at h
  · dsimp only at h
    split at h
    · exact absurd h (by simp)
    · exact absurd h (by simp)
    · rename_i heq
      injection h with h'
      injection h' with h1 h2
      subst h1
      simp_all
  · exact absurd h (by simp)

theorem findHrefsGo_succ (fuel : Nat) (l : List Char) :
    findHrefsGo (fuel + 1) l =
      match hrefMatch l with
      | some (b, tail) => b :: findHrefsGo fuel tail
      | none =>
        match l with
        | [] => []
        | _ :: cs => findHrefsGo fuel cs := rfl

theorem findHrefsGo_ne_nil : ∀ (fuel : Nat) (l : List Char),
    ∀ b ∈ findHrefsGo fuel l, b ≠ [] := by
  intro fuel
  induction fuel with
  | zero => intro l b hb; simp [findHrefsGo] at hb
  | succ fuel ih =>
    intro l b hb
    rw [findHrefsGo_succ] at hb
    cases hm : hrefMatch l with
    | some p =>
      obtain ⟨bod, tail⟩ := p
      rw [hm] at hb
      simp only [List.mem_cons] at hb
      rcases hb with rfl | hb
      · exact hrefMatch_body_ne_nil l b tail hm
      · exact ih tail b hb
    | none =>
      rw [hm] at hb
      cases l with
      | nil => simp at hb
      | cons c cs => exact ih cs b hb

theorem findHrefs_ne_nil (content : List Char) :
    ∀ b ∈ findHrefs content, b ≠ [] :=
  findHrefsGo_ne_nil content.length content

theorem percentDecode_ne_nil (l : List Char) (hl : l ≠ []) :
    percentDecode l ≠ [] := by
  unfold percentDecode
  split
  · exact absurd rfl hl
  · split <;> simp
  · simp

theorem parseStep_subset1 (acc : List (List Char) × List (List Char))
    (h x : List Char) (hx : x ∈ acc.1) : x ∈ (parseStep acc h).1 := by
  simp only [parseStep]
  split_ifs <;> simp [hx]

theorem parseStep_subset2 (acc : List (List Char) × List (List Char))
    (h x : List Char) (hx : x ∈ acc.2) : x ∈ (parseStep acc h).2 := by
  simp only [parseStep]
  split_ifs <;> simp [hx]

theorem parseStep_adds_dir (acc : List (List Char) × List (List Char))
    (h : List Char) (hf : filteredOut h = false)
    (hs : endsWithSlash h = true)
    (hne : rstripSlash (percentDecode h) ≠ []) :
    rstripSlash (percentDecode h) ∈ (parseStep acc h).1 := by
  simp only [parseStep]
  rw [if_neg (by simp [hf]), if_pos hs]
  by_cases hd : rstripSlash (percentDecode h) ∉ acc.1
  · rw [if_pos ⟨hne, hd⟩]
    simp
  · rw [if_neg (fun hc => hd hc.2)]
    exact not_not.mp hd

theorem parseStep_adds_file (acc : List (List Char) × List (List Char))
    (h : List Char) (hf : filteredOut h = false)
    (hs : endsWithSlash h = false)
    (hne : percentDecode h ≠ []) :
    percentDecode h ∈ (parseStep acc h).2 := by
  simp only [parseStep]
  rw [if_neg (by simp [hf]), if_neg (by simp [hs])]
  by_cases hd : percentDecode h ∉ acc.2
  · rw [if_pos ⟨hne, hd⟩]
    simp
  · rw [if_neg (fun hc => hd hc.2)]
    exact not_not.mp hd

theorem parseStep_src1 (acc : List (List Char) × List (List Char))
    (h x : List Char) (hx : x ∈ (parseStep acc h).1) :
    x ∈ acc.1 ∨ (filteredOut h = false ∧ endsWithSlash h = true
      ∧ x = rstripSlash (percentDecode h)) := by
  simp only [parseStep] at hx
  split_ifs at hx with h1 h2 h3 h4
  · exact Or.inl hx
  · rcases List.mem_append.mp hx with hx | hx
    · exact Or.inl hx
    · refine Or.inr ⟨?_, ?_, by simpa using hx⟩
      · simpa using h1
      · exact h2
  · exact Or.inl hx
  · exact Or.inl hx
  · exact Or.inl hx

theorem parseStep_src2 (acc : List (List Char) × List (List Char))
    (h x : List Char) (hx : x ∈ (parseStep acc h).2) :
    x ∈ acc.2 ∨ (filteredOut h = false ∧ endsWithSlash h = false
      ∧ x = percentDecode h) := by
  simp only [parseStep] at hx
  split_ifs at hx with h1 h2 h3 h4
  · exact Or.inl hx
  · exact Or.inl hx
  · exact Or.inl hx
  · rcases List.mem_append.mp hx with hx | hx
    · exact Or.inl hx
    · refine Or.inr ⟨?_, ?_, by simpa using hx⟩
      · simpa using h1
      · simpa using h2
  · exact Or.inl hx

theorem foldl_parseStep_subset1 :
    ∀ (hs : List (List Char)) (acc : List (List Char) × List (List Char))
      (x : List Char), x ∈ acc.1 → x ∈ (hs.foldl parseStep acc).1 := by
  intro hs
  induction hs with
  | nil => intro acc x hx; exact hx
  | cons h hs' ih =>
    intro acc x hx
    exact ih (parseStep acc h) x (parseStep_subset1 acc h x hx)

theorem foldl_parseStep_subset2 :
    ∀ (hs : List (List Char)) (acc : List (List Char) × List (List Char))
      (x : List Char), x ∈ acc.2 → x ∈ (hs.foldl parseStep acc).2 := by
  intro hs
  induction hs with
  | nil => intro acc x hx; exact hx
  | cons h hs' ih =>
    intro acc x hx
    exact ih (parseStep acc h) x (parseStep_subset2 acc h x hx)

theorem foldl_parseStep_mem_dir :
    ∀ (hs : List (List Char)) (acc : List (List Char) × List (List Char))
      (h : List Char), h ∈ hs → filteredOut h = false →
      endsWithSlash h = true → rstripSlash (percentDecode h) ≠ [] →
      rstripSlash (percentDecode h) ∈ (hs.foldl parseStep acc).1 := by
  intro hs
  induction hs with
  | nil => intro acc h hmem; simp at hmem
  | cons h0 hs' ih =>
    intro acc h hmem hf hsl hne
    rcases List.mem_cons.mp hmem with rfl | hmem
    · exact foldl_parseStep_subset1 hs' (parseStep acc h) _
        (parseStep_adds_dir acc h hf hsl hne)
    · exact ih (parseStep acc h0) h hmem hf hsl hne

theorem foldl_parseStep_mem_file :
    ∀ (hs : List (List Char)) (acc : List (List Char) × List (List Char))
      (h : List Char), h ∈ hs → filteredOut h = false →
      endsWithSlash h = false → percentDecode h ≠ [] →
      percentDecode h ∈ (hs.foldl parseStep acc).2 := by
  intro hs
  induction hs with
  | nil => intro acc h hmem; simp at hmem
  | cons h0 hs' ih =>
    intro acc h hmem hf hsl hne
    rcases List.mem_cons.mp hmem with rfl | hmem
    · exact foldl_parseStep_subset2 hs' (parseStep acc h) _
        (parseStep_adds_file acc h hf hsl hne)
    · exact ih (parseStep acc h0) h hmem hf hsl hne

theorem foldl_parseStep_src1 :
    ∀ (hs : List (List Char)) (acc : List (List Char) × List (List Char))
      (x : List Char), x ∈ (hs.foldl parseStep acc).1 →
      x ∈ acc.1 ∨ ∃ h, h ∈ hs ∧ filteredOut h = false
        ∧ endsWithSlash h = true ∧ x = rstripSlash (percentDecode h) := by
  intro hs
  induction hs with
  | nil => intro acc x hx; exact Or.inl hx
  | cons h0 hs' ih =>
    intro acc x hx
    rcases ih (parseStep acc h0) x hx with hx' | ⟨h, hh, hf, hsl, hx'⟩
    · rcases parseStep_src1 acc h0 x hx' with hx'' | ⟨hf, hsl, hx''⟩
      · exact Or.inl hx''
      · exact Or.inr ⟨h0, List.mem_cons_self h0 hs', hf, hsl, hx''⟩
    · exact Or.inr ⟨h, List.mem_cons_of_mem h0 hh, hf, hsl, hx'⟩

theorem foldl_parseStep_src2 :
    ∀ (hs : List (List Char)) (acc : List (List Char) × List (List Char))
      (x : List Char), x ∈ (hs.foldl parseStep acc).2 →
      x ∈ acc.2 ∨ ∃ h, h ∈ hs ∧ filteredOut h = false
        ∧ endsWithSlash h = false ∧ x = percentDecode h := by
  intro hs
  induction hs with
  | nil => intro acc x hx; exact Or.inl hx
  | cons h0 hs' ih =>
    intro acc x hx
    rcases ih (parseStep acc h0) x hx with hx' | ⟨h, hh, hf, hsl, hx'⟩
    · rcases parseStep_src2 acc h0 x hx' with hx'' | ⟨hf, hsl, hx''⟩
      · exact Or.inl hx''
      · exact Or.inr ⟨h0, List.mem_cons_self h0 hs', hf, hsl, hx''⟩
    · exact Or.inr ⟨h, List.mem_cons_of_mem h0 hh, hf, hsl, hx'⟩

theorem nodup_append_single {α : Type} (l : List α) (a : α)
    (ha : a ∉ l) (hl : l.Nodup) : (l ++ [a]).Nodup := by
  rw [List.nodup_append]
  refine ⟨hl, List.nodup_singleton a, ?_⟩
  intro x hx hxa
  rcases List.mem_singleton.mp hxa with rfl
  exact ha hx

theorem parseStep_nodup1 (acc : List (List Char) × List (List Char))
    (h : List Char) (hnd : acc.1.Nodup) : (parseStep acc h).1.Nodup := by
  simp only [parseStep]
  split_ifs with h1 h2 h3 h4 <;>
    first
      | exact hnd
      | exact nodup_append_single _ _ h3.2 hnd

theorem parseStep_nodup2 (acc : List (List Char) × List (List Char))
    (h : List Char) (hnd : acc.2.Nodup) : (parseStep acc h).2.Nodup := by
  simp only [parseStep]
  split_ifs with h1 h2 h3 h4 <;>
    first
      | exact hnd
      | exact nodup_append_single _ _ h4.2 hnd

theorem foldl_parseStep_nodup :
    ∀ (hs : List (List Char)) (acc : List (List Char) × List (List Char)),
      acc.1.Nodup → acc.2.Nodup →
      (hs.foldl parseStep acc).1.Nodup ∧ (hs.foldl parseStep acc).2.Nodup := by
  intro hs
  induction hs with
  | nil => intro acc h1 h2; exact ⟨h1, h2⟩
  | cons h0 hs' ih =>
    intro acc h1 h2
    exact ih (parseStep acc h0) (parseStep_nodup1 acc h0 h1)
      (parseStep_nodup2 acc h0 h2)

/-- C3 (as amended): for every index content, every extracted href that
survives the filter (`../`, `..`, `http`-prefixed, `?`-containing hrefs
are discarded) and ends in `/` appears — percent-decoded and stripped of
trailing slashes — in the directory list, provided that stripped name is
non-empty; every other surviving href appears percent-decoded in the file
list; every entry of either list originates from a surviving href of the
corresponding kind; and both lists are duplicate-free. -/
theorem parse_index_classification (content : List Char) :
    (∀ h ∈ findHrefs content, filteredOut h = false →
        endsWithSlash h = true → rstripSlash (percentDecode h) ≠ [] →
        rstripSlash (percentDecode h) ∈ (parse_index content).1)
    ∧ (∀ h ∈ findHrefs content, filteredOut h = false →
        endsWithSlash h = false →
        percentDecode h ∈ (parse_index content).2)
    ∧ (∀ d ∈ (parse_index content).1, ∃ h, h ∈ findHrefs content
        ∧ filteredOut h = false ∧ endsWithSlash h = true
        ∧ d = rstripSlash (percentDecode h))
    ∧ (∀ f ∈ (parse_index content).2, ∃ h, h ∈ findHrefs content
        ∧ filteredOut h = false ∧ endsWithSlash h = false
        ∧ f = percentDecode h)
    ∧ (parse_index content).1.Nodup ∧ (parse_index content).2.Nodup := by
  refine ⟨?_, ?_, ?_, ?_, ?_, ?_⟩
  · intro h hmem hf hsl hne
    exact (mem_pySortBy listLtChar _ _).mpr
      (foldl_parseStep_mem_dir (findHrefs content) ([], []) h hmem hf hsl hne)
  · intro h hmem hf hsl
    have hne : percentDecode h ≠ [] :=
      percentDecode_ne_nil h (findHrefs_ne_nil content h hmem)
    exact (mem_pySortBy listLtChar _ _).mpr
      (foldl_parseStep_mem_file (findHrefs content) ([], []) h hmem hf hsl hne)
  · intro d hd
    have hd' := (mem_pySortBy listLtChar d _).mp hd
    rcases foldl_parseStep_src1 (findHrefs content) ([], []) d hd' with h0 | hsrc
    · simp at h0
    · exact hsrc
  · intro f hf
    have hf' := (mem_pySortBy listLtChar f _).mp hf
    rcases foldl_parseStep_src2 (findHrefs content) ([], []) f hf' with h0 | hsrc
    · simp at h0
    · exact hsrc
  · exact (perm_pySortBy listLtChar _).nodup_iff.mpr
      (foldl_parseStep_nodup (findHrefs content) ([], []) (by simp) (by simp)).1
  · exact (perm_pySortBy listLtChar _).nodup_iff.mpr
      (foldl_parseStep_nodup (findHrefs content) ([], []) (by simp) (by simp)).2

/-- Counterexample to C3 as stated: the content `<a href="/">` yields the
extracted, unfiltered href `/` ending in `/`, yet `parse_index` puts it in
neither list (its decoded name, stripped of slashes, is empty), so not
every surviving slash-terminated href is classified as a directory. -/
theorem parse_index_classification_counterexample :
    findHrefs (toChars "<a href=\"/\">") = [toChars "/"]
    ∧ filteredOut (toChars "/") = false
    ∧ endsWithSlash (toChars "/") = true
    ∧ parse_index (toChars "<a href=\"/\">") = ([], []) := by
  refine ⟨by decide, by decide, by decide, by decide⟩

/-- Witness for C3's amended classification at a concrete index content
with one directory link and one file link. -/
theorem parse_index_classification_witness :
    rstripSlash (percentDecode (toChars "Games/"))
      ∈ (parse_index (toChars "<a href=\"Games/\"><a href=\"x.zip\">")).1
    ∧ percentDecode (toChars "x.zip")
      ∈ (parse_index (toChars "<a href=\"Games/\"><a href=\"x.zip\">")).2 :=
  ⟨(parse_index_classification
      (toChars "<a href=\"Games/\"><a href=\"x.zip\">")).1
      (toChars "Games/") (by decide) (by decide) (by decide) (by decide),
   (parse_index_classification
      (toChars "<a href=\"Games/\"><a href=\"x.zip\">")).2.1
      (toChars "x.zip") (by decide) (by decide) (by decide)⟩
